import Mathlib

/-!
Verification of the ingestion pipeline of `data_importer.py` from the
repository `SleepSheepQwQ/cyber_lookup`.

The development shallowly embeds the pipeline:

* the record extractor `re.findall(r'(\d+)----(\d+)', content)` is embedded
  as `findAll` over lists of characters (digits are modelled as the ASCII
  decimal digits, which is how every input in the repository's file format
  is written);
* the SQLite table `user_mapping (uid TEXT PRIMARY KEY, phone_number TEXT)`
  together with `INSERT OR REPLACE` is embedded as an association list with
  an in-place replacing `upsert` (the table's content as a keyed set of rows
  is exactly the association list's content);
* the batching loop, the glob-based file discovery with current-directory
  fallback and the `try`/`except`/`finally` driver are embedded as explicit
  state-passing functions, with storage-engine failures injected through an
  optional index `failAt` naming the storage operation that raises
  `sqlite3.Error`.
-/

namespace CyberLookup

/-- A piece of decoded text, as a list of characters. -/
abbrev Str := List Char

/-- ASCII decimal digit test, the character class of the regex token
value class in `(\d+)----(\d+)`. -/
def isDigitCh (c : Char) : Bool := 48 ≤ c.toNat && c.toNat ≤ 57

/-- The four-hyphen delimiter of the pattern. -/
def hyph4 : Str := ['-', '-', '-', '-']

/-- Every character of the list is a decimal digit. -/
def AllDigits (l : Str) : Prop := ∀ c ∈ l, isDigitCh c = true

instance (l : Str) : Decidable (AllDigits l) := by
  unfold AllDigits; infer_instance

/-- Greedy `\d+`-style scan: split a text into its maximal leading run of
decimal digits and the remaining text. -/
def takeDigits : Str → Str × Str
  | [] => ([], [])
  | c :: r =>
    if isDigitCh c then
      let p := takeDigits r
      (c :: p.1, p.2)
    else ([], c :: r)

/-- Attempt of the pattern `(\d+)----(\d+)` at the very beginning of the
text: the greedy-with-backtracking semantics of the Python regex collapses,
for this pattern, to taking the maximal digit run, requiring exactly four
hyphens, and taking the maximal digit run again (a shorter choice for the
first group is always followed by a digit, never by a hyphen, so
backtracking can never rescue a failed attempt).  Returns the two captured
groups and the text after the match. -/
def matchAt (l : Str) : Option (Str × Str × Str) :=
  let ar := takeDigits l
  if ar.1 = [] then none
  else if ar.2.take 4 = hyph4 then
    let br := takeDigits (ar.2.drop 4)
    if br.1 = [] then none else some (ar.1, br.1, br.2)
  else none

/-- Fuelled worker for `findAll`; the fuel only serves structural
termination and is irrelevant as soon as it dominates the text length. -/
def findAllAux : Nat → Str → List (Str × Str)
  | 0, _ => []
  | _ + 1, [] => []
  | fuel + 1, c :: r =>
    match matchAt (c :: r) with
    | some (a, b, rest) => (a, b) :: findAllAux fuel rest
    | none => findAllAux fuel r

/-- Embedding of `re.findall(r'(\d+)----(\d+)', content)`: scan left to
right, report each non-overlapping match as its pair of captured groups and
resume after the match; advance one character when no match starts here. -/
def findAll (l : Str) : List (Str × Str) := findAllAux l.length l

theorem takeDigits_append_eq (l : Str) :
    (takeDigits l).1 ++ (takeDigits l).2 = l := by
  induction l with
  | nil => rfl
  | cons c r ih =>
    by_cases h : isDigitCh c
    · simp [takeDigits, h, ih]
    · simp [takeDigits, h]

theorem takeDigits_all_digits (l : Str) : AllDigits (takeDigits l).1 := by
  induction l with
  | nil => intro c hc; simp [takeDigits] at hc
  | cons c r ih =>
    by_cases h : isDigitCh c
    · intro d hd
      simp [takeDigits, h] at hd
      rcases hd with hd | hd
      · simpa [hd] using h
      · exact ih d hd
    · intro d hd; simp [takeDigits, h] at hd

theorem takeDigits_rest_head (l : Str) (c : Char)
    (h : (takeDigits l).2.head? = some c) : isDigitCh c = false := by
  induction l with
  | nil => simp [takeDigits] at h
  | cons d r ih =>
    by_cases hd : isDigitCh d
    · simp only [takeDigits, hd, if_pos] at h
      exact ih h
    · simp [takeDigits, hd] at h
      subst h
      simpa using hd

theorem takeDigits_of_digits_append (a : Str) (c : Char) (t : Str)
    (ha : AllDigits a) (hc : isDigitCh c = false) :
    takeDigits (a ++ c :: t) = (a, c :: t) := by
  induction a with
  | nil => simp [takeDigits, hc]
  | cons d r ih =>
    have hd : isDigitCh d = true := ha d (by simp)
    have hr : AllDigits r := fun x hx => ha x (by simp [hx])
    simp [takeDigits, hd, ih hr]

theorem takeDigits_of_all_digits (a : Str) (ha : AllDigits a) :
    takeDigits a = (a, []) := by
  induction a with
  | nil => rfl
  | cons d r ih =>
    have hd : isDigitCh d = true := ha d (by simp)
    have hr : AllDigits r := fun x hx => ha x (by simp [hx])
    simp [takeDigits, hd, ih hr]

/-- Soundness of a head match: the matched text decomposes as
`groupA ++ "----" ++ groupB ++ rest`, both groups are nonempty digit runs,
and the remaining text does not begin with a digit (`groupB` is greedy). -/
theorem matchAt_sound (l a b rest : Str) (h : matchAt l = some (a, b, rest)) :
    l = a ++ hyph4 ++ b ++ rest ∧ a ≠ [] ∧ AllDigits a ∧ b ≠ [] ∧
      AllDigits b ∧ (∀ c, rest.head? = some c → isDigitCh c = false) := by
  unfold matchAt at h
  simp only [] at h
  by_cases ha : (takeDigits l).1 = []
  · simp [ha] at h
  · rw [if_neg ha] at h
    by_cases hh : (takeDigits l).2.take 4 = hyph4
    · rw [if_pos hh] at h
      by_cases hb : (takeDigits ((takeDigits l).2.drop 4)).1 = []
      · simp [hb] at h
      · rw [if_neg hb] at h
        simp only [Option.some.injEq, Prod.mk.injEq] at h
        obtain ⟨hA, hB, hR⟩ := h
        refine ⟨?_, ?_, ?_, ?_, ?_, ?_⟩
        · have e1 := takeDigits_append_eq l
          have e2 := takeDigits_append_eq ((takeDigits l).2.drop 4)
          have e3 : (takeDigits l).2.take 4 ++ (takeDigits l).2.drop 4
              = (takeDigits l).2 := List.take_append_drop 4 _
          rw [hB, hR] at e2
          rw [← e1, ← e3, hh, hA, ← e2]
          simp [List.append_assoc]
        · rw [← hA]; exact ha
        · rw [← hA]; exact takeDigits_all_digits l
        · rw [← hB]; exact hb
        · rw [← hB]; exact takeDigits_all_digits _
        · intro c hc
          rw [← hR] at hc
          exact takeDigits_rest_head _ c hc
    · rw [if_neg hh] at h; exact absurd h (by simp)

/-- A head match consumes at least six characters. -/
theorem matchAt_rest_shorter (l a b rest : Str)
    (h : matchAt l = some (a, b, rest)) : rest.length + 6 ≤ l.length := by
  obtain ⟨hl, ha, -, hb, -, -⟩ := matchAt_sound l a b rest h
  subst hl
  have h1 : 1 ≤ a.length := by
    cases a with
    | nil => exact absurd rfl ha
    | cons x t => simp
  have h2 : 1 ≤ b.length := by
    cases b with
    | nil => exact absurd rfl hb
    | cons x t => simp
  simp [hyph4]
  omega

/-- When some head match exists, `takeDigits` yields a nonempty first run. -/
theorem takeDigits_cons_digit (c : Char) (t : Str) (hc : isDigitCh c = true) :
    takeDigits (c :: t) = (c :: (takeDigits t).1, (takeDigits t).2) := by
  simp [takeDigits, hc]

/-- Completeness of a head match: a decomposition
`l = a ++ "----" ++ b ++ r` with nonempty digit groups forces `matchAt` to
succeed (with possibly different, greedier groups). -/
theorem matchAt_isSome_of_decomp (l a b r : Str) (hl : l = a ++ hyph4 ++ b ++ r)
    (ha : a ≠ []) (hb : b ≠ []) (da : AllDigits a) (db : AllDigits b) :
    (matchAt l).isSome = true := by
  have htd : takeDigits l = (a, hyph4 ++ b ++ r) := by
    rw [hl]
    have : a ++ hyph4 ++ b ++ r = a ++ ('-' :: ('-' :: '-' :: '-' :: (b ++ r))) := by
      simp [hyph4]
    rw [this]
    have h4 : takeDigits (a ++ '-' :: ('-' :: '-' :: '-' :: (b ++ r)))
        = (a, '-' :: ('-' :: '-' :: '-' :: (b ++ r))) :=
      takeDigits_of_digits_append a '-' _ da (by decide)
    rw [h4]
    simp [hyph4]
  unfold matchAt
  rw [htd]
  have hh : (hyph4 ++ b ++ r).take 4 = hyph4 := by
    simp [hyph4]
  have hdrop : (hyph4 ++ b ++ r).drop 4 = b ++ r := by
    simp [hyph4]
  simp only [if_neg ha, hh, if_pos rfl, hdrop]
  obtain ⟨c, t, rfl⟩ : ∃ c t, b = c :: t := by
    cases b with
    | nil => exact absurd rfl hb
    | cons c t => exact ⟨c, t, rfl⟩
  have hc : isDigitCh c = true := db c (by simp)
  rw [List.cons_append, takeDigits_cons_digit c (t ++ r) hc]
  simp

/-- `findAllAux` ignores the fuel as soon as it dominates the text length. -/
theorem findAllAux_fuel (f1 f2 : Nat) (l : Str)
    (h1 : l.length ≤ f1) (h2 : l.length ≤ f2) :
    findAllAux f1 l = findAllAux f2 l := by
  induction f1 generalizing f2 l with
  | zero =>
    cases l with
    | nil =>
      cases f2 with
      | zero => rfl
      | succ g2 => rfl
    | cons c r => simp at h1
  | succ g1 ih =>
    cases l with
    | nil =>
      cases f2 with
      | zero => rfl
      | succ g2 => rfl
    | cons c r =>
      cases f2 with
      | zero => simp at h2
      | succ g2 =>
        simp only [findAllAux]
        cases hm : matchAt (c :: r) with
        | none =>
          show findAllAux g1 r = findAllAux g2 r
          exact ih g2 r (by simpa using h1) (by simpa using h2)
        | some v =>
          obtain ⟨a, b, rest⟩ := v
          have hlen := matchAt_rest_shorter (c :: r) a b rest hm
          simp only [List.length_cons] at hlen h1 h2
          show (a, b) :: findAllAux g1 rest = (a, b) :: findAllAux g2 rest
          rw [ih g2 rest (by omega) (by omega)]

theorem findAll_nil : findAll [] = [] := rfl

theorem findAll_eq_cons_of_matchAt (l a b rest : Str)
    (h : matchAt l = some (a, b, rest)) :
    findAll l = (a, b) :: findAll rest := by
  obtain ⟨hl, ha, -, -, -, -⟩ := matchAt_sound l a b rest h
  obtain ⟨c, r, hcr⟩ : ∃ c r, l = c :: r := by
    cases l with
    | nil =>
      exfalso
      cases a with
      | nil => exact ha rfl
      | cons x t => simp [hyph4] at hl
    | cons c r => exact ⟨c, r, rfl⟩
  subst hcr
  have hlen := matchAt_rest_shorter (c :: r) a b rest h
  simp only [List.length_cons] at hlen
  unfold findAll
  simp only [List.length_cons, findAllAux, h]
  rw [findAllAux_fuel r.length rest.length rest (by omega) (le_refl _)]

theorem findAll_eq_of_matchAt_none (c : Char) (r : Str)
    (h : matchAt (c :: r) = none) : findAll (c :: r) = findAll r := by
  unfold findAll
  simp only [List.length_cons, findAllAux, h]

/-! ### The persistent store

The SQLite table `user_mapping (uid TEXT PRIMARY KEY NOT NULL, phone_number
TEXT NOT NULL)` is embedded as an association list of
`(uid, phone_number)` rows.  `INSERT OR REPLACE` on the primary key is
embedded as `upsert`: when the key is present its row is replaced, when it
is absent the row is appended.  The table's content — the set of rows,
keyed by the unique `uid` — is exactly the association list's content. -/

abbrev Store := List (Str × Str)

/-- The row keys (the `uid` column). -/
def keysOf (s : Store) : List Str := s.map (fun r => r.1)

/-- Key membership, the `uid` uniqueness test of the primary key. -/
def KeyIn (u : Str) (s : Store) : Prop := ∃ r ∈ s, r.1 = u

instance (u : Str) (s : Store) : Decidable (KeyIn u s) := by
  unfold KeyIn; infer_instance

/-- One `INSERT OR REPLACE INTO user_mapping (uid, phone_number)` row
write. -/
def upsert (s : Store) (u v : Str) : Store :=
  if KeyIn u s then s.map (fun r => if r.1 = u then (u, v) else r)
  else s ++ [(u, v)]

/-- `conn.executemany("INSERT OR REPLACE ...", batch)`: the rows of the
batch are written in order within one transaction. -/
def upsertBatch (s : Store) (batch : List (Str × Str)) : Store :=
  batch.foldl (fun t r => upsert t r.1 r.2) s

/-- `SELECT phone_number FROM user_mapping WHERE uid = u` (first row). -/
def lookupStore : Store → Str → Option Str
  | [], _ => none
  | r :: s, u => if r.1 = u then some r.2 else lookupStore s u

/-- The primary-key uniqueness invariant of the table. -/
def NodupKeys (s : Store) : Prop := (keysOf s).Nodup

/-- Every row of key `u` carries the value `v`. -/
def Uniform (s : Store) (u v : Str) : Prop := ∀ r ∈ s, r.1 = u → r.2 = v

/-- Left-biased choice on `Option`. -/
def orE (x y : Option Str) : Option Str :=
  match x with
  | some v => some v
  | none => y

/-- The value written last for key `u` in a sequence of records, if any. -/
def lastVal (rs : List (Str × Str)) (u : Str) : Option Str :=
  rs.foldl (fun acc r => if r.1 = u then some r.2 else acc) none

theorem keyIn_iff_mem_keysOf (u : Str) (s : Store) :
    KeyIn u s ↔ u ∈ keysOf s := by
  unfold KeyIn keysOf
  simp [eq_comm]

theorem keysOf_upsert_of_keyIn (s : Store) (u v : Str) (h : KeyIn u s) :
    keysOf (upsert s u v) = keysOf s := by
  unfold upsert
  rw [if_pos h]
  unfold keysOf
  rw [List.map_map]
  apply List.map_congr_left
  intro r _
  by_cases hr : r.1 = u
  · simp [hr]
  · simp [hr]

theorem keysOf_upsert_of_not_keyIn (s : Store) (u v : Str) (h : ¬ KeyIn u s) :
    keysOf (upsert s u v) = keysOf s ++ [u] := by
  unfold upsert
  rw [if_neg h]
  unfold keysOf
  simp

theorem keyIn_upsert_self (s : Store) (u v : Str) : KeyIn u (upsert s u v) := by
  by_cases h : KeyIn u s
  · obtain ⟨r, hr, hru⟩ := h
    unfold upsert
    rw [if_pos ⟨r, hr, hru⟩]
    exact ⟨(u, v), List.mem_map.mpr ⟨r, hr, by simp [hru]⟩, rfl⟩
  · unfold upsert
    rw [if_neg h]
    exact ⟨(u, v), by simp, rfl⟩

theorem keyIn_upsert_mono (s : Store) (u a v : Str) (h : KeyIn u s) :
    KeyIn u (upsert s a v) := by
  rw [keyIn_iff_mem_keysOf] at h ⊢
  by_cases ha : KeyIn a s
  · rwa [keysOf_upsert_of_keyIn s a v ha]
  · rw [keysOf_upsert_of_not_keyIn s a v ha]
    exact List.mem_append_left _ h

theorem keyIn_upsertBatch_mono (s : Store) (u : Str)
    (rs : List (Str × Str)) (h : KeyIn u s) : KeyIn u (upsertBatch s rs) := by
  induction rs generalizing s with
  | nil => exact h
  | cons r t ih => exact ih (upsert s r.1 r.2) (keyIn_upsert_mono s u r.1 r.2 h)

theorem orE_none_right (x : Option Str) : orE x none = x := by
  cases x with
  | none => rfl
  | some v => rfl

theorem lookup_append (s t : Store) (k : Str) :
    lookupStore (s ++ t) k = orE (lookupStore s k) (lookupStore t k) := by
  induction s with
  | nil => rfl
  | cons r s ih =>
    by_cases hr : r.1 = k
    · simp [lookupStore, hr, orE]
    · simp [lookupStore, hr, ih]

theorem lookup_none_iff (s : Store) (u : Str) :
    lookupStore s u = none ↔ ¬ KeyIn u s := by
  induction s with
  | nil =>
    constructor
    · intro _ h; obtain ⟨x, hx, _⟩ := h; simp at hx
    · intro _; rfl
  | cons r t ih =>
    by_cases hr : r.1 = u
    · constructor
      · intro h; simp [lookupStore, hr] at h
      · intro h; exact absurd ⟨r, List.mem_cons_self r t, hr⟩ h
    · simp only [lookupStore, if_neg hr, ih]
      constructor
      · intro h hex
        obtain ⟨x, hx, hxu⟩ := hex
        rw [List.mem_cons] at hx
        rcases hx with hx | hx
        · subst hx; exact hr hxu
        · exact h ⟨x, hx, hxu⟩
      · intro h hex
        obtain ⟨x, hx, hxu⟩ := hex
        exact h ⟨x, List.mem_cons_of_mem r hx, hxu⟩

theorem lookup_mapReplace_self (s : Store) (u v : Str) :
    lookupStore (s.map (fun r => if r.1 = u then (u, v) else r)) u
      = match lookupStore s u with
        | some _ => some v
        | none => none := by
  induction s with
  | nil => rfl
  | cons r t ih =>
    by_cases hr : r.1 = u
    · simp [lookupStore, hr]
    · simp [lookupStore, hr, ih]

theorem lookup_mapReplace_ne (s : Store) (u v k : Str) (hk : u ≠ k) :
    lookupStore (s.map (fun r => if r.1 = u then (u, v) else r)) k
      = lookupStore s k := by
  induction s with
  | nil => rfl
  | cons r t ih =>
    by_cases hr : r.1 = u
    · have hrk : ¬ r.1 = k := by rw [hr]; exact hk
      simp [lookupStore, hr, if_neg hk, if_neg hrk, ih]
    · by_cases hk2 : r.1 = k
      · simp only [List.map_cons, if_neg hr, lookupStore, if_pos hk2]
      · simp only [List.map_cons, if_neg hr, lookupStore, if_neg hk2, ih]

theorem lookup_upsert (s : Store) (u v k : Str) :
    lookupStore (upsert s u v) k
      = if u = k then some v else lookupStore s k := by
  by_cases hk : u = k
  · subst hk
    rw [if_pos rfl]
    by_cases h : KeyIn u s
    · unfold upsert
      rw [if_pos h, lookup_mapReplace_self]
      cases hl : lookupStore s u with
      | none => exact absurd ((lookup_none_iff s u).mp hl) (not_not.mpr h)
      | some w => rfl
    · unfold upsert
      rw [if_neg h, lookup_append]
      rw [(lookup_none_iff s u).mpr h]
      simp [lookupStore, orE]
  · rw [if_neg hk]
    by_cases h : KeyIn u s
    · unfold upsert
      rw [if_pos h, lookup_mapReplace_ne s u v k hk]
    · unfold upsert
      rw [if_neg h, lookup_append]
      simp only [lookupStore, if_neg hk]
      exact orE_none_right _

theorem upsertBatch_nil (s : Store) : upsertBatch s [] = s := rfl

theorem upsertBatch_cons (s : Store) (r : Str × Str) (rs : List (Str × Str)) :
    upsertBatch s (r :: rs) = upsertBatch (upsert s r.1 r.2) rs := rfl

theorem upsertBatch_append (s : Store) (r1 r2 : List (Str × Str)) :
    upsertBatch s (r1 ++ r2) = upsertBatch (upsertBatch s r1) r2 :=
  List.foldl_append _ s r1 r2

theorem lastVal_nil (u : Str) : lastVal [] u = none := rfl

theorem lastVal_foldl_acc (rs : List (Str × Str)) (u : Str) (acc : Option Str) :
    rs.foldl (fun a r => if r.1 = u then some r.2 else a) acc
      = orE (lastVal rs u) acc := by
  induction rs generalizing acc with
  | nil => cases acc with | none => rfl | some v => rfl
  | cons r t ih =>
    unfold lastVal
    simp only [List.foldl_cons]
    rw [ih, ih (if r.1 = u then some r.2 else none)]
    cases h : lastVal t u with
    | some w => rfl
    | none =>
      by_cases hr : r.1 = u
      · simp [orE, hr]
      · simp [orE, hr]

theorem lastVal_cons (r : Str × Str) (rs : List (Str × Str)) (u : Str) :
    lastVal (r :: rs) u
      = orE (lastVal rs u) (if r.1 = u then some r.2 else none) := by
  unfold lastVal
  simp only [List.foldl_cons]
  exact lastVal_foldl_acc rs u _

theorem lastVal_append (r1 r2 : List (Str × Str)) (u : Str) :
    lastVal (r1 ++ r2) u = orE (lastVal r2 u) (lastVal r1 u) := by
  unfold lastVal
  rw [List.foldl_append]
  exact lastVal_foldl_acc r2 u _

/-- The batched writes realize last-write-wins: after a batch, a key reads
as the last value written for it in the batch, and as before otherwise. -/
theorem lookup_upsertBatch (rs : List (Str × Str)) (s : Store) (u : Str) :
    lookupStore (upsertBatch s rs) u = orE (lastVal rs u) (lookupStore s u) := by
  induction rs generalizing s with
  | nil => rw [upsertBatch_nil, lastVal_nil]; rfl
  | cons r t ih =>
    rw [upsertBatch_cons, ih, lastVal_cons]
    rw [lookup_upsert]
    cases h : lastVal t u with
    | some w => rfl
    | none =>
      by_cases hr : r.1 = u
      · simp [orE, hr, eq_comm]
      · simp [orE, hr]

theorem nodupKeys_upsert (s : Store) (u v : Str) (h : NodupKeys s) :
    NodupKeys (upsert s u v) := by
  by_cases hk : KeyIn u s
  · unfold NodupKeys
    rwa [keysOf_upsert_of_keyIn s u v hk]
  · unfold NodupKeys
    rw [keysOf_upsert_of_not_keyIn s u v hk]
    rw [keyIn_iff_mem_keysOf] at hk
    simpa [List.nodup_append] using ⟨h, hk⟩

theorem nodupKeys_upsertBatch (rs : List (Str × Str)) (s : Store)
    (h : NodupKeys s) : NodupKeys (upsertBatch s rs) := by
  induction rs generalizing s with
  | nil => exact h
  | cons r t ih => exact ih _ (nodupKeys_upsert s r.1 r.2 h)

theorem filter_key_of_not_keyIn (s : Store) (u : Str) (h : ¬ KeyIn u s) :
    s.filter (fun r => r.1 = u) = [] := by
  induction s with
  | nil => rfl
  | cons r t ih =>
    have hr : ¬ r.1 = u := fun he => h ⟨r, List.mem_cons_self r t, he⟩
    have ht : ¬ KeyIn u t := fun hex => by
      obtain ⟨x, hx, hxu⟩ := hex
      exact h ⟨x, List.mem_cons_of_mem r hx, hxu⟩
    simp only [List.filter_cons, decide_eq_true_eq, hr, if_false]
    simpa [hr] using ih ht

/-- Under the primary-key uniqueness invariant, the rows of a given key are
exactly the singleton told by `lookupStore` (or none). -/
theorem filter_key_eq_lookup (s : Store) (u : Str) (h : NodupKeys s) :
    s.filter (fun r => r.1 = u)
      = match lookupStore s u with
        | some v => [(u, v)]
        | none => [] := by
  induction s with
  | nil => rfl
  | cons r t ih =>
    by_cases hr : r.1 = u
    · have hu : ¬ u ∈ keysOf t := by
        unfold NodupKeys keysOf at h
        simp only [List.map_cons, List.nodup_cons] at h
        rw [← hr]
        exact fun hm => h.1 (by simpa [keysOf] using hm)
      have ht : ¬ KeyIn u t := fun hk => hu ((keyIn_iff_mem_keysOf u t).mp hk)
      have hfil : t.filter (fun r => r.1 = u) = [] := filter_key_of_not_keyIn t u ht
      have hre : r = (u, r.2) := by
        cases r with
        | mk a b => simp only at hr; rw [hr]
      simp only [List.filter_cons, decide_eq_true_eq, hr, if_true, lookupStore, hfil]
      rw [hre]
    · have ht : NodupKeys t := by
        unfold NodupKeys keysOf at h ⊢
        simp only [List.map_cons, List.nodup_cons] at h
        exact h.2
      simp only [List.filter_cons, decide_eq_true_eq, hr, if_false, lookupStore]
      simpa [hr] using ih ht

/-! ### Idempotence algebra of `upsert` -/

theorem upsert_eq_map (s : Store) (u v : Str) (h : KeyIn u s) :
    upsert s u v = s.map (fun r => if r.1 = u then (u, v) else r) := by
  unfold upsert
  rw [if_pos h]

theorem upsert_eq_append (s : Store) (u v : Str) (h : ¬ KeyIn u s) :
    upsert s u v = s ++ [(u, v)] := by
  unfold upsert
  rw [if_neg h]

theorem upsert_upsert_same (s : Store) (u p q : Str) :
    upsert (upsert s u p) u q = upsert s u q := by
  by_cases h : KeyIn u s
  · have h2 : KeyIn u (upsert s u p) := keyIn_upsert_self s u p
    rw [upsert_eq_map s u p h, upsert_eq_map s u q h,
      upsert_eq_map _ u q (upsert_eq_map s u p h ▸ h2)]
    rw [List.map_map]
    apply List.map_congr_left
    intro r _
    by_cases hr : r.1 = u
    · simp [Function.comp, hr]
    · simp [Function.comp, hr]
  · have h2 : KeyIn u (upsert s u p) := keyIn_upsert_self s u p
    rw [upsert_eq_append s u p h, upsert_eq_append s u q h,
      upsert_eq_map _ u q (upsert_eq_append s u p h ▸ h2)]
    rw [List.map_append]
    have h1 : (s.map fun r => if r.1 = u then (u, q) else r) = s := by
      have hp : ∀ r ∈ s, (if r.1 = u then (u, q) else r) = r := by
        intro r hr
        rw [if_neg (fun he => h ⟨r, hr, he⟩)]
      rw [List.map_congr_left hp, List.map_id']
    rw [h1]
    simp

/-- Writes to distinct keys commute, provided the first key is already
present (so that no append can change the relative row order). -/
theorem upsert_comm (s : Store) (u p u' p' : Str) (hu : KeyIn u s)
    (hne : u ≠ u') :
    upsert (upsert s u p) u' p' = upsert (upsert s u' p') u p := by
  have hne' : ¬ u' = u := fun he => hne he.symm
  by_cases h' : KeyIn u' s
  · have k1 : KeyIn u' (upsert s u p) := keyIn_upsert_mono s u' u p h'
    have k2 : KeyIn u (upsert s u' p') := keyIn_upsert_mono s u u' p' hu
    rw [upsert_eq_map s u p hu, upsert_eq_map s u' p' h',
      upsert_eq_map _ u' p' (upsert_eq_map s u p hu ▸ k1),
      upsert_eq_map _ u p (upsert_eq_map s u' p' h' ▸ k2)]
    rw [List.map_map, List.map_map]
    apply List.map_congr_left
    intro r _
    by_cases hr : r.1 = u
    · have hr' : ¬ r.1 = u' := by rw [hr]; exact hne
      simp [Function.comp, hr, hr', hne]
    · by_cases hr' : r.1 = u'
      · simp [Function.comp, hr, hr', hne']
      · simp [Function.comp, hr, hr']
  · have k1 : ¬ KeyIn u' (upsert s u p) := by
      rw [keyIn_iff_mem_keysOf, keysOf_upsert_of_keyIn s u p hu,
        ← keyIn_iff_mem_keysOf]
      exact h'
    have k2 : KeyIn u (upsert s u' p') := keyIn_upsert_mono s u u' p' hu
    rw [upsert_eq_append _ u' p' k1, upsert_eq_append s u' p' h',
      upsert_eq_map s u p hu,
      upsert_eq_map _ u p (upsert_eq_append s u' p' h' ▸ k2)]
    rw [List.map_append]
    have h1 : ([((u' : Str), p')].map fun r => if r.1 = u then (u, p) else r)
        = [(u', p')] := by
      simp [hne']
    rw [h1]

/-- After writing `(u, p)`, every row of key `u` carries `p`. -/
theorem uniform_upsert_self (s : Store) (u p : Str) :
    Uniform (upsert s u p) u p := by
  intro r hr hru
  by_cases h : KeyIn u s
  · rw [upsert_eq_map s u p h] at hr
    obtain ⟨x, _, hx⟩ := List.mem_map.mp hr
    by_cases hxu : x.1 = u
    · rw [if_pos hxu] at hx; rw [← hx]
    · rw [if_neg hxu] at hx; rw [← hx] at hru; exact absurd hru hxu
  · rw [upsert_eq_append s u p h] at hr
    rcases List.mem_append.mp hr with hr | hr
    · exact absurd hru (fun he => h ⟨r, hr, he⟩)
    · have hr2 : r = (u, p) := by simpa using hr
      rw [hr2]

theorem uniform_upsert_other (s : Store) (u p u' p' : Str) (hne : u ≠ u')
    (h : Uniform s u p) : Uniform (upsert s u' p') u p := by
  intro r hr hru
  by_cases hk : KeyIn u' s
  · rw [upsert_eq_map s u' p' hk] at hr
    obtain ⟨x, hx, hfx⟩ := List.mem_map.mp hr
    by_cases hxu : x.1 = u'
    · rw [if_pos hxu] at hfx
      rw [← hfx] at hru
      exact absurd hru.symm hne
    · rw [if_neg hxu] at hfx
      rw [← hfx] at hru ⊢
      exact h x hx hru
  · rw [upsert_eq_append s u' p' hk] at hr
    rcases List.mem_append.mp hr with hr | hr
    · exact h r hr hru
    · have hr2 : r = (u', p') := by simpa using hr
      rw [hr2] at hru
      exact absurd (hru : u' = u).symm hne

/-- The record keys of a batch. -/
def recKeys (rs : List (Str × Str)) : List Str := rs.map (fun r => r.1)

theorem uniform_upsertBatch (rs : List (Str × Str)) (s : Store) (u p : Str)
    (hu : ¬ u ∈ recKeys rs) (h : Uniform s u p) :
    Uniform (upsertBatch s rs) u p := by
  induction rs generalizing s with
  | nil => exact h
  | cons r t ih =>
    have h1 : u ≠ r.1 := by
      intro he
      exact hu (by simp [recKeys, he])
    have h2 : ¬ u ∈ recKeys t := fun hm => hu (by simp [recKeys] at hm ⊢; right; exact hm)
    exact ih (upsert s r.1 r.2) h2 (uniform_upsert_other s u p r.1 r.2 h1 h)

/-- A write that repeats the uniform value of an already-present key is the
identity. -/
theorem upsert_of_uniform (s : Store) (u p : Str) (hk : KeyIn u s)
    (h : Uniform s u p) : upsert s u p = s := by
  unfold upsert
  rw [if_pos hk]
  have hp : ∀ r ∈ s, (if r.1 = u then (u, p) else r) = r := by
    intro r hr
    by_cases hru : r.1 = u
    · rw [if_pos hru]
      have := h r hr hru
      cases r with
      | mk a b =>
        simp only at hru this
        rw [hru, this]
    · rw [if_neg hru]
  rw [List.map_congr_left hp, List.map_id']

/-- Absorption: a redundant leading write is erased by a batch, when its key
is already present and either the batch rewrites the key anyway or the write
only repeats the uniform stored value. -/
theorem upsertBatch_absorb (rs : List (Str × Str)) (s : Store) (u p : Str)
    (hk : KeyIn u s) (h : Uniform s u p ∨ u ∈ recKeys rs) :
    upsertBatch (upsert s u p) rs = upsertBatch s rs := by
  induction rs generalizing s with
  | nil =>
    rcases h with h | h
    · exact congrArg (upsertBatch · []) (upsert_of_uniform s u p hk h)
    · simp [recKeys] at h
  | cons r t ih =>
    by_cases hr : r.1 = u
    · rw [upsertBatch_cons, upsertBatch_cons]
      rw [hr, upsert_upsert_same]
    · rw [upsertBatch_cons, upsertBatch_cons]
      rw [upsert_comm s u p r.1 r.2 hk (fun he => hr he.symm)]
      apply ih (upsert s r.1 r.2) (keyIn_upsert_mono s u r.1 r.2 hk)
      rcases h with h | h
      · exact Or.inl (uniform_upsert_other s u p r.1 r.2 (fun he => hr he.symm) h)
      · simp [recKeys] at h
        rcases h with h | h
        · exact absurd h.symm (fun he => hr he)
        · exact Or.inr (by simpa [recKeys] using h)

theorem keyIn_upsertBatch_of_recKey (rs : List (Str × Str)) (s : Store)
    (u : Str) (h : u ∈ recKeys rs) : KeyIn u (upsertBatch s rs) := by
  induction rs generalizing s with
  | nil => simp [recKeys] at h
  | cons r t ih =>
    rw [upsertBatch_cons]
    simp only [recKeys, List.map_cons, List.mem_cons] at h
    rcases h with h | h
    · subst h
      exact keyIn_upsertBatch_mono _ _ t (keyIn_upsert_self s r.1 r.2)
    · exact ih _ (by simpa [recKeys] using h)

/-- Replaying the same record sequence over its own result is the
identity: the heart of the idempotence of re-ingestion. -/
theorem upsertBatch_idem (rs : List (Str × Str)) (s : Store) :
    upsertBatch (upsertBatch s rs) rs = upsertBatch s rs := by
  induction rs generalizing s with
  | nil => rfl
  | cons r t ih =>
    rw [upsertBatch_cons s, upsertBatch_cons (upsertBatch (upsert s r.1 r.2) t)]
    have hk : KeyIn r.1 (upsertBatch (upsert s r.1 r.2) t) :=
      keyIn_upsertBatch_mono _ r.1 t (keyIn_upsert_self s r.1 r.2)
    rw [upsertBatch_absorb t _ r.1 r.2 hk ?h]
    · exact ih (upsert s r.1 r.2)
    case h =>
      by_cases hm : r.1 ∈ recKeys t
      · exact Or.inr hm
      · exact Or.inl (uniform_upsertBatch t _ r.1 r.2 hm (uniform_upsert_self s r.1 r.2))

/-! ### The ingestion loop of `parse_and_import_data`

The loop state carries the database content (`store`), the in-memory
`batch_data` buffer, the `total_records` counter and a count `ops` of the
storage transactions successfully committed so far (the `setup_database`
transaction is operation number `0`, so the loop starts at `ops = 1`).
Storage-engine failures (`sqlite3.Error`) are injected by an oracle
`failAt : Option Nat` naming the operation that raises; an `Except` error
carries the state at the moment of the raise, with the failing batch left
unapplied (the transaction aborts). -/

structure RunSt where
  store : Store
  batch : List (Str × Str)
  total : Nat
  ops : Nat
deriving DecidableEq

/-- One `executemany INSERT OR REPLACE` plus `commit` of the whole buffer:
atomically applies the batch and resets the buffer, or raises. -/
def flushOp (failAt : Option Nat) (st : RunSt) : Except RunSt RunSt :=
  if failAt = some st.ops then Except.error st
  else Except.ok ⟨upsertBatch st.store st.batch, [], st.total, st.ops + 1⟩

/-- The body of `for phone, uid in records`: append the reversed pair
`(uid, phone)` to `batch_data`, bump `total_records`, and flush once the
buffer has reached `batch_size` — the failure-free version. -/
def stepP (bs : Nat) (st : RunSt) (rec : Str × Str) : RunSt :=
  let st1 : RunSt := ⟨st.store, st.batch ++ [(rec.2, rec.1)], st.total + 1, st.ops⟩
  if bs ≤ st1.batch.length then
    ⟨upsertBatch st1.store st1.batch, [], st1.total, st1.ops + 1⟩
  else st1

/-- The same loop body with storage failures injected. -/
def stepE (failAt : Option Nat) (bs : Nat) (st : RunSt) (rec : Str × Str) :
    Except RunSt RunSt :=
  let st1 : RunSt := ⟨st.store, st.batch ++ [(rec.2, rec.1)], st.total + 1, st.ops⟩
  if bs ≤ st1.batch.length then flushOp failAt st1 else Except.ok st1

/-- Process the `re.findall` records of one file's decoded content. -/
def fileE (failAt : Option Nat) (bs : Nat) (st : RunSt) (content : Str) :
    Except RunSt RunSt :=
  (findAll content).foldlM (stepE failAt bs) st

/-- Process every discovered file in order. -/
def filesE (failAt : Option Nat) (bs : Nat) (st : RunSt) (contents : List Str) :
    Except RunSt RunSt :=
  contents.foldlM (fileE failAt bs) st

/-- `if batch_data:` — the trailing partial flush after the file loop. -/
def finalFlushE (failAt : Option Nat) (st : RunSt) : Except RunSt RunSt :=
  if st.batch = [] then Except.ok st else flushOp failAt st

/-- The whole ingestion body after schema setup and file discovery. -/
def bodyE (failAt : Option Nat) (bs : Nat) (contents : List Str) (s0 : Store) :
    Except RunSt RunSt :=
  (filesE failAt bs ⟨s0, [], 0, 1⟩ contents).bind (finalFlushE failAt)

/-! ### File discovery and the driver -/

/-- A raw input file: decodable characters interleaved with undecodable
byte sequences (`none`), which `errors='ignore'` silently drops. -/
abbrev RawFile := List (Option Char)

/-- `open(..., encoding='utf-8', errors='ignore')` followed by `read()`. -/
def decodeIgnore (raw : RawFile) : Str := raw.filterMap id

/-- A directory entry: file name and raw content. -/
abbrev DirEntry := Str × RawFile

/-- The file system visible to the importer: whether `DATA_DIR` exists,
its entries, and the entries of the current working directory. -/
structure FileSys where
  dataDirExists : Bool
  dataDirFiles : List DirEntry
  cwdFiles : List DirEntry

/-- The pattern `qb*.txt`: name begins with `qb`, ends with `.txt`, and is
long enough that the two literal parts do not overlap. -/
def globMatch (n : Str) : Bool :=
  decide (n.take 2 = ['q', 'b']) && decide (6 ≤ n.length) &&
    decide (n.drop (n.length - 4) = ['.', 't', 'x', 't'])

/-- `glob.glob(os.path.join(DATA_DIR, 'qb*.txt'))` followed by the
current-directory fallback `glob.glob('qb*.txt')`.  Python's `glob`
returns `[]` — it does not raise — when the directory does not exist, so a
missing `DATA_DIR` is indistinguishable here from an empty one. -/
def discovered (fs : FileSys) : List RawFile :=
  let primary := (if fs.dataDirExists then fs.dataDirFiles else []).filter
    (fun f => globMatch f.1)
  let chosen := if primary = [] then fs.cwdFiles.filter (fun f => globMatch f.1)
    else primary
  chosen.map (fun f => f.2)

/-- The observable outcome of one run of the importer process. -/
structure RunResult where
  exitCode : Nat
  store : Store
  total : Nat
  finalReport : Option Nat
  errorReported : Bool
  schemaReady : Bool
  closed : Bool
deriving DecidableEq

/-- Embedding of `parse_and_import_data` (with `main`'s process exit):
connect, `setup_database`, discover files, run the batched ingestion, and
report; `sqlite3.Error` is caught, reported and turned into `sys.exit(1)`;
the `finally` block always closes the connection.  `finalReport` records
the final `Total records imported` line, printed only on the normal
completion path. -/
def parse_and_import_data (failAt : Option Nat) (bs : Nat) (fs : FileSys)
    (s0 : Store) : RunResult :=
  if failAt = some 0 then
    ⟨1, s0, 0, none, true, false, true⟩
  else
    let contents := (discovered fs).map decodeIgnore
    if contents = [] then
      ⟨0, s0, 0, none, false, true, true⟩
    else
      match bodyE failAt bs contents s0 with
      | Except.ok st => ⟨0, st.store, st.total, some st.total, false, true, true⟩
      | Except.error f => ⟨1, f.store, f.total, none, true, true, true⟩

/-! ### The failure-free run reduces to a single fold of upserts -/

/-- Failure-free per-file loop. -/
def fileP (bs : Nat) (st : RunSt) (content : Str) : RunSt :=
  (findAll content).foldl (stepP bs) st

/-- Failure-free loop over all files. -/
def filesP (bs : Nat) (st : RunSt) (contents : List Str) : RunSt :=
  contents.foldl (fileP bs) st

/-- Failure-free trailing flush. -/
def finalFlushP (st : RunSt) : RunSt :=
  if st.batch = [] then st
  else ⟨upsertBatch st.store st.batch, [], st.total, st.ops + 1⟩

/-- Failure-free ingestion body. -/
def bodyP (bs : Nat) (contents : List Str) (s0 : Store) : RunSt :=
  finalFlushP (filesP bs ⟨s0, [], 0, 1⟩ contents)

/-- The canonical records of an extracted pair list: the Key Remapper's
reversal `(phone, uid) ↦ (uid, phone)`. -/
def canonRecs (rs : List (Str × Str)) : List (Str × Str) :=
  rs.map (fun r => (r.2, r.1))

/-- All canonical records of a list of decoded file contents, in file
order then in-file order. -/
def canonOf (contents : List Str) : List (Str × Str) :=
  (contents.map (fun c => canonRecs (findAll c))).flatten

/-- All canonical records a run over the file system processes. -/
def canonRecords (fs : FileSys) : List (Str × Str) :=
  canonOf ((discovered fs).map decodeIgnore)

theorem stepE_none (bs : Nat) (st : RunSt) (r : Str × Str) :
    stepE none bs st r = Except.ok (stepP bs st r) := by
  unfold stepE stepP flushOp
  by_cases h : bs ≤ st.batch.length + 1
  · simp [h]
  · simp [h]

theorem foldlM_ok {α : Type} (f : RunSt → α → RunSt)
    (g : RunSt → α → Except RunSt RunSt)
    (hfg : ∀ st a, g st a = Except.ok (f st a)) (l : List α) (st : RunSt) :
    l.foldlM g st = Except.ok (l.foldl f st) := by
  induction l generalizing st with
  | nil => rfl
  | cons a t ih =>
    rw [List.foldlM_cons, List.foldl_cons, hfg]
    exact ih (f st a)

theorem fileE_none (bs : Nat) (st : RunSt) (content : Str) :
    fileE none bs st content = Except.ok (fileP bs st content) :=
  foldlM_ok (stepP bs) (stepE none bs) (stepE_none bs) (findAll content) st

theorem filesE_none (bs : Nat) (st : RunSt) (contents : List Str) :
    filesE none bs st contents = Except.ok (filesP bs st contents) :=
  foldlM_ok (fileP bs) (fileE none bs) (fileE_none bs) contents st

theorem finalFlushE_none (st : RunSt) :
    finalFlushE none st = Except.ok (finalFlushP st) := by
  unfold finalFlushE finalFlushP flushOp
  by_cases h : st.batch = []
  · simp [h]
  · simp [h]

theorem bodyE_none (bs : Nat) (contents : List Str) (s0 : Store) :
    bodyE none bs contents s0 = Except.ok (bodyP bs contents s0) := by
  unfold bodyE bodyP
  rw [filesE_none]
  exact finalFlushE_none _

/-- The store-and-buffer view of a loop step: one record amounts to one
upsert of its reversed pair, whether or not the step flushed. -/
theorem stepP_flushed (bs : Nat) (st : RunSt) (r : Str × Str) :
    upsertBatch (stepP bs st r).store (stepP bs st r).batch
      = upsert (upsertBatch st.store st.batch) r.2 r.1 := by
  unfold stepP
  by_cases h : bs ≤ st.batch.length + 1
  · simp only [List.length_append, List.length_cons, List.length_nil, h, if_pos]
    rw [upsertBatch_nil, upsertBatch_append]
    rfl
  · rw [if_neg (by simpa using h)]
    simp only []
    rw [upsertBatch_append]
    rfl

theorem foldl_stepP_flushed (recs : List (Str × Str)) (bs : Nat) (st : RunSt) :
    upsertBatch (recs.foldl (stepP bs) st).store (recs.foldl (stepP bs) st).batch
      = upsertBatch (upsertBatch st.store st.batch) (canonRecs recs) := by
  induction recs generalizing st with
  | nil => rfl
  | cons r t ih =>
    rw [List.foldl_cons, ih]
    simp only [canonRecs, List.map_cons, upsertBatch_cons]
    rw [stepP_flushed]

theorem fileP_flushed (bs : Nat) (st : RunSt) (content : Str) :
    upsertBatch (fileP bs st content).store (fileP bs st content).batch
      = upsertBatch (upsertBatch st.store st.batch) (canonRecs (findAll content)) :=
  foldl_stepP_flushed (findAll content) bs st

theorem filesP_flushed (bs : Nat) (st : RunSt) (contents : List Str) :
    upsertBatch (filesP bs st contents).store (filesP bs st contents).batch
      = upsertBatch (upsertBatch st.store st.batch) (canonOf contents) := by
  induction contents generalizing st with
  | nil => rfl
  | cons c t ih =>
    unfold filesP at ih ⊢
    rw [List.foldl_cons, ih]
    simp only [canonOf, List.map_cons, List.flatten_cons]
    rw [fileP_flushed, upsertBatch_append]

theorem finalFlushP_store (st : RunSt) :
    (finalFlushP st).store = upsertBatch st.store st.batch := by
  unfold finalFlushP
  by_cases h : st.batch = []
  · rw [if_pos h, h, upsertBatch_nil]
  · rw [if_neg h]

/-- The final store of a failure-free ingestion body is the sequential
upsert of all canonical records, for every batch size. -/
theorem bodyP_store (bs : Nat) (contents : List Str) (s0 : Store) :
    (bodyP bs contents s0).store = upsertBatch s0 (canonOf contents) := by
  unfold bodyP
  rw [finalFlushP_store, filesP_flushed]
  rfl

/-- The final store of a failure-free run, for every batch size: the
discovered files' canonical records upserted in order into the initial
store. -/
theorem run_none_store (bs : Nat) (fs : FileSys) (s0 : Store) :
    (parse_and_import_data none bs fs s0).store = upsertBatch s0 (canonRecords fs) := by
  unfold parse_and_import_data
  rw [if_neg (by simp)]
  by_cases h : (discovered fs).map decodeIgnore = []
  · simp only [h, if_pos]
    unfold canonRecords
    rw [h]
    rfl
  · rw [if_neg h, bodyE_none]
    simp only []
    exact bodyP_store bs _ s0

/-! ### Declarative specification of the extractor

Written from the specification's words: «produce every non-overlapping
match of the pattern `<digits>` `----` `<digits>`, preserving left-to-right
appearance order … no match constraints beyond one or more decimal digits
on each side separated by exactly four hyphen characters; files with zero
matches yield an empty sequence».  A match of the pattern starts at a
position exactly when the text from that position on decomposes as
`digits ++ "----" ++ digits ++ anything`; the reported sequence walks the
text left to right, no match starts strictly inside a skipped gap, and each
reported pair takes the maximal digit runs (`a` maximal because a digit
just before it would let a match start earlier; `b` maximal explicitly). -/

/-- A match of `(\d+)----(\d+)` starts at the head of the text. -/
def StartsMatch (l : Str) : Prop :=
  ∃ a b r, l = a ++ hyph4 ++ b ++ r ∧ a ≠ [] ∧ b ≠ [] ∧ AllDigits a ∧ AllDigits b

/-- The declarative reading of `re.findall(r'(\d+)----(\d+)', text)`:
either no match of the pattern starts anywhere, and the result is empty, or
the text splits into a gap in which no match starts, the leftmost match
with greedy groups, and a remainder described recursively. -/
inductive ExtractionSpec : Str → List (Str × Str) → Prop where
  | nil (l : Str) (h : ∀ i, ¬ StartsMatch (l.drop i)) : ExtractionSpec l []
  | cons (g a b rest : Str) (ms : List (Str × Str))
      (ha : a ≠ []) (da : AllDigits a) (hb : b ≠ []) (db : AllDigits b)
      (hgap : ∀ i, i < g.length → ¬ StartsMatch ((g ++ (a ++ hyph4 ++ b) ++ rest).drop i))
      (hmax : ∀ c, rest.head? = some c → isDigitCh c = false)
      (hrec : ExtractionSpec rest ms) :
      ExtractionSpec (g ++ (a ++ hyph4 ++ b) ++ rest) ((a, b) :: ms)

theorem not_startsMatch_nil : ¬ StartsMatch [] := by
  rintro ⟨a, b, r, hl, ha, -, -, -⟩
  cases a with
  | nil => exact ha rfl
  | cons c t => simp at hl

theorem startsMatch_iff_matchAt (l : Str) :
    StartsMatch l ↔ (matchAt l).isSome = true := by
  constructor
  · rintro ⟨a, b, r, hl, ha, hb, da, db⟩
    exact matchAt_isSome_of_decomp l a b r hl ha hb da db
  · intro h
    cases hm : matchAt l with
    | none => rw [hm] at h; simp at h
    | some v =>
      obtain ⟨a, b, rest⟩ := v
      obtain ⟨hl, ha, da, hb, db, -⟩ := matchAt_sound l a b rest hm
      exact ⟨a, b, rest, by simpa [List.append_assoc] using hl, ha, hb, da, db⟩

/-- `findAll` meets the declarative extraction specification. -/
theorem findAll_spec_aux (n : Nat) :
    ∀ l : Str, l.length ≤ n → ExtractionSpec l (findAll l) := by
  induction n with
  | zero =>
    intro l h
    have : l = [] := List.length_eq_zero.mp (Nat.le_zero.mp h)
    subst this
    rw [findAll_nil]
    exact ExtractionSpec.nil [] (fun i => by simpa using not_startsMatch_nil)
  | succ n ih =>
    intro l hlen
    cases l with
    | nil =>
      rw [findAll_nil]
      exact ExtractionSpec.nil [] (fun i => by simpa using not_startsMatch_nil)
    | cons c r =>
      cases hm : matchAt (c :: r) with
      | some v =>
        obtain ⟨a, b, rest⟩ := v
        rw [findAll_eq_cons_of_matchAt (c :: r) a b rest hm]
        obtain ⟨hl, ha, da, hb, db, hmax⟩ := matchAt_sound (c :: r) a b rest hm
        have hrest : ExtractionSpec rest (findAll rest) := by
          apply ih
          have := matchAt_rest_shorter (c :: r) a b rest hm
          simp only [List.length_cons] at this hlen
          omega
        have hspec := ExtractionSpec.cons [] a b rest (findAll rest)
          ha da hb db (fun i hi => by simp at hi) hmax hrest
        have hshape : ([] : Str) ++ (a ++ hyph4 ++ b) ++ rest = c :: r := by
          simp only [List.nil_append, List.append_assoc]
          simp only [List.append_assoc] at hl
          exact hl.symm
        rwa [hshape] at hspec
      | none =>
        rw [findAll_eq_of_matchAt_none c r hm]
        have hnm : ¬ StartsMatch (c :: r) := by
          rw [startsMatch_iff_matchAt, hm]
          simp
        have hrec : ExtractionSpec r (findAll r) := by
          apply ih
          simp only [List.length_cons] at hlen
          omega
        generalize hg : findAll r = ms at hrec ⊢
        cases hrec with
        | nil _ h =>
          apply ExtractionSpec.nil
          intro i
          cases i with
          | zero => simpa using hnm
          | succ j => simpa using h j
        | cons g a b rest ms ha da hb db hgap hmax hrec2 =>
          have hspec := ExtractionSpec.cons (c :: g) a b rest ms ha da hb db
            ?gap hmax hrec2
          · simpa using hspec
          case gap =>
            intro i hi
            cases i with
            | zero => simpa using hnm
            | succ j =>
              simp only [List.length_cons] at hi
              have := hgap j (by omega)
              simpa using this

/-- `findAll` meets the declarative extraction specification, for every
input text. -/
theorem findAll_spec (l : Str) : ExtractionSpec l (findAll l) :=
  findAll_spec_aux l.length l (le_refl _)

/-! ### Storage failure paths -/

theorem flushOp_error (failAt : Option Nat) (st f : RunSt)
    (h : flushOp failAt st = Except.error f) :
    failAt = some f.ops ∧ f = st := by
  unfold flushOp at h
  by_cases hf : failAt = some st.ops
  · rw [if_pos hf] at h
    cases h
    exact ⟨hf, rfl⟩
  · rw [if_neg hf] at h
    cases h

theorem stepE_error (failAt : Option Nat) (bs : Nat) (st : RunSt)
    (r : Str × Str) (f : RunSt) (h : stepE failAt bs st r = Except.error f) :
    failAt = some f.ops := by
  unfold stepE at h
  by_cases hl : bs ≤ st.batch.length + 1
  · rw [if_pos (by simpa using hl)] at h
    exact (flushOp_error failAt _ f h).1
  · rw [if_neg (by simpa using hl)] at h
    cases h

theorem foldlM_error {α : Type} (g : RunSt → α → Except RunSt RunSt)
    (P : RunSt → Prop) (hg : ∀ st a f, g st a = Except.error f → P f) :
    ∀ (l : List α) (st f : RunSt), l.foldlM g st = Except.error f → P f := by
  intro l
  induction l with
  | nil => intro st f h; cases h
  | cons a t ih =>
    intro st f h
    rw [List.foldlM_cons] at h
    cases hga : g st a with
    | error f' =>
      rw [hga] at h
      cases h
      exact hg st a f hga
    | ok st' =>
      rw [hga] at h
      exact ih st' f h

theorem fileE_error (failAt : Option Nat) (bs : Nat) (st : RunSt)
    (content : Str) (f : RunSt) (h : fileE failAt bs st content = Except.error f) :
    failAt = some f.ops :=
  foldlM_error (stepE failAt bs) (fun f => failAt = some f.ops)
    (fun st r f hr => stepE_error failAt bs st r f hr) (findAll content) st f h

theorem filesE_error (failAt : Option Nat) (bs : Nat) (st : RunSt)
    (contents : List Str) (f : RunSt)
    (h : filesE failAt bs st contents = Except.error f) :
    failAt = some f.ops :=
  foldlM_error (fileE failAt bs) (fun f => failAt = some f.ops)
    (fun st c f hc => fileE_error failAt bs st c f hc) contents st f h

/-- An aborted run stopped exactly at the failing storage operation: the
operations successfully committed are precisely those numbered below the
injected failure, nothing is retried and nothing later is attempted. -/
theorem bodyE_error_ops (failAt : Option Nat) (bs : Nat) (contents : List Str)
    (s0 : Store) (f : RunSt)
    (h : bodyE failAt bs contents s0 = Except.error f) :
    failAt = some f.ops := by
  unfold bodyE at h
  cases hf : filesE failAt bs ⟨s0, [], 0, 1⟩ contents with
  | error f' =>
    rw [hf] at h
    cases h
    exact filesE_error failAt bs _ contents f hf
  | ok st =>
    rw [hf] at h
    simp only [Except.bind] at h
    unfold finalFlushE at h
    by_cases hb : st.batch = []
    · rw [if_pos hb] at h
      cases h
    · rw [if_neg hb] at h
      exact (flushOp_error failAt st f h).1

theorem run_closed (failAt : Option Nat) (bs : Nat) (fs : FileSys) (s0 : Store) :
    (parse_and_import_data failAt bs fs s0).closed = true := by
  unfold parse_and_import_data
  by_cases h0 : failAt = some 0
  · rw [if_pos h0]
  · rw [if_neg h0]
    by_cases hc : (discovered fs).map decodeIgnore = []
    · rw [if_pos hc]
    · rw [if_neg hc]
      cases bodyE failAt bs ((discovered fs).map decodeIgnore) s0 with
      | ok st => rfl
      | error f => rfl

theorem run_error_result (failAt : Option Nat) (bs : Nat) (fs : FileSys)
    (s0 : Store) (f : RunSt) (h0 : failAt ≠ some 0)
    (hc : (discovered fs).map decodeIgnore ≠ [])
    (he : bodyE failAt bs ((discovered fs).map decodeIgnore) s0 = Except.error f) :
    parse_and_import_data failAt bs fs s0
      = ⟨1, f.store, f.total, none, true, true, true⟩ := by
  unfold parse_and_import_data
  rw [if_neg h0, if_neg hc, he]

/-! ### Small computation helpers for the claim theorems -/

theorem decodeIgnore_clean (l : Str) : decodeIgnore (l.map some) = l := by
  induction l with
  | nil => rfl
  | cons c t ih =>
    unfold decodeIgnore at ih ⊢
    simp [ih]

theorem upsert_nil (u v : Str) : upsert [] u v = [(u, v)] := by
  rw [upsert_eq_append [] u v (by rintro ⟨r, hr, -⟩; simp at hr)]
  rfl

theorem findAll_single (A B : Str) (hA : A ≠ []) (hB : B ≠ [])
    (dA : AllDigits A) (dB : AllDigits B) :
    findAll (A ++ hyph4 ++ B) = [(A, B)] := by
  have htd : takeDigits (A ++ hyph4 ++ B) = (A, hyph4 ++ B) := by
    have e : A ++ hyph4 ++ B = A ++ '-' :: ('-' :: '-' :: '-' :: B) := by
      simp [hyph4]
    rw [e, takeDigits_of_digits_append A '-' _ dA (by decide)]
    simp [hyph4]
  have hm : matchAt (A ++ hyph4 ++ B) = some (A, B, []) := by
    unfold matchAt
    rw [htd]
    simp only []
    rw [if_neg hA]
    have ht : (hyph4 ++ B).take 4 = hyph4 := by simp [hyph4]
    have hd : (hyph4 ++ B).drop 4 = B := by simp [hyph4]
    rw [ht, if_pos rfl, hd, takeDigits_of_all_digits B dB]
    simp only []
    rw [if_neg hB]
  rw [findAll_eq_cons_of_matchAt _ A B [] hm, findAll_nil]

/-! ### Claim theorems -/

/-- C1.  For every matched pair in an input file of the form `<A>----<B>`
(`A` and `B` digit strings), the record handed to the store has primary key
(`uid`) equal to `B`, the right-hand token, and attribute value
(`phone_number`) equal to `A`, the left-hand token: the extractor's
left/right positions are reversed, never stored in pattern order. -/
theorem stored_row_reverses_pattern_order (A B : Str) (hA : A ≠ []) (hB : B ≠ [])
    (dA : AllDigits A) (dB : AllDigits B) :
    (parse_and_import_data none 50000
        ⟨true, [(['q', 'b', '1', '.', 't', 'x', 't'], (A ++ hyph4 ++ B).map some)], []⟩
        []).store = [(B, A)] := by
  rw [run_none_store]
  have hglob : globMatch ['q', 'b', '1', '.', 't', 'x', 't'] = true := by decide
  have hdisc : discovered
      ⟨true, [(['q', 'b', '1', '.', 't', 'x', 't'], (A ++ hyph4 ++ B).map some)], []⟩
      = [(A ++ hyph4 ++ B).map some] := by
    unfold discovered
    simp [hglob]
  unfold canonRecords
  rw [hdisc]
  simp only [List.map_cons, List.map_nil, decodeIgnore_clean]
  unfold canonOf
  simp only [List.map_cons, List.map_nil]
  rw [findAll_single A B hA hB dA dB]
  simp only [canonRecs, List.map_cons, List.map_nil, List.flatten, List.append_nil]
  rw [upsertBatch_cons]
  simp only [upsertBatch_nil]
  exact upsert_nil B A

/-- Witness for C1 at the concrete input `5551234----9001`. -/
theorem stored_row_reverses_pattern_order_w :
    (parse_and_import_data none 50000
        ⟨true, [(['q', 'b', '1', '.', 't', 'x', 't'],
          ("5551234".data ++ hyph4 ++ "9001".data).map some)], []⟩
        []).store = [("9001".data, "5551234".data)] :=
  stored_row_reverses_pattern_order "5551234".data "9001".data
    (by decide) (by decide) (by decide) (by decide)

/-- C2.  When the same primary key occurs more than once across the inputs
with different attribute values, after ingestion the store holds exactly
one row for that key, whose attribute value is the one from the occurrence
processed last in file-enumeration-then-in-file-appearance order
(`lastVal` over the run's canonical record sequence). -/
theorem last_write_wins (fs : FileSys) (s0 : Store) (u v : Str)
    (hnd : NodupKeys s0)
    (hlast : lastVal (canonRecords fs) u = some v) :
    (parse_and_import_data none 50000 fs s0).store.filter (fun r => r.1 = u)
      = [(u, v)] := by
  rw [run_none_store]
  have hnd2 : NodupKeys (upsertBatch s0 (canonRecords fs)) :=
    nodupKeys_upsertBatch _ s0 hnd
  rw [filter_key_eq_lookup _ u hnd2, lookup_upsertBatch, hlast]
  rfl

/-- Witness for C2 at the example file
`"5551234----9001\n5555678----9001\n"`: exactly one row remains for key
`9001`, carrying the second occurrence's value `5555678`. -/
theorem last_write_wins_w :
    (parse_and_import_data none 50000
        ⟨true, [(['q', 'b', '1', '.', 't', 'x', 't'],
          "5551234----9001\n5555678----9001\n".data.map some)], []⟩
        []).store.filter (fun r => r.1 = "9001".data)
      = [("9001".data, "5555678".data)] :=
  last_write_wins _ [] "9001".data "5555678".data
    (by simp [NodupKeys, keysOf]) (by decide)

/-- C3.  Running the ingestion twice over the same input files yields a
store whose content equals the content after a single run: re-ingestion is
idempotent, with no duplicate rows and no drift. -/
theorem reingestion_idempotent (fs : FileSys) (s0 : Store) :
    (parse_and_import_data none 50000 fs
        (parse_and_import_data none 50000 fs s0).store).store
      = (parse_and_import_data none 50000 fs s0).store := by
  rw [run_none_store 50000 fs s0]
  rw [run_none_store 50000 fs (upsertBatch s0 (canonRecords fs))]
  exact upsertBatch_idem (canonRecords fs) s0

/-- C4.  The final store content after ingestion is independent of the
batch-size threshold: every positive threshold yields the store of the
unbatched record-at-a-time upsert of the same record sequence. -/
theorem batch_threshold_immaterial (b1 b2 : Nat) (fs : FileSys) (s0 : Store)
    (h1 : 0 < b1) (h2 : 0 < b2) :
    (parse_and_import_data none b1 fs s0).store
        = upsertBatch s0 (canonRecords fs) ∧
      (parse_and_import_data none b1 fs s0).store
        = (parse_and_import_data none b2 fs s0).store := by
  refine ⟨run_none_store b1 fs s0, ?_⟩
  rw [run_none_store b1 fs s0, run_none_store b2 fs s0]

/-- Witness for C4: threshold `2` (exactly the total record count of the
example file) against threshold `5`. -/
theorem batch_threshold_immaterial_w :
    (parse_and_import_data none 2
        ⟨true, [(['q', 'b', '1', '.', 't', 'x', 't'],
          "5551234----9001\n5555678----9001\n".data.map some)], []⟩
        []).store
        = upsertBatch []
          (canonRecords
            ⟨true, [(['q', 'b', '1', '.', 't', 'x', 't'],
              "5551234----9001\n5555678----9001\n".data.map some)], []⟩) ∧
      (parse_and_import_data none 2
        ⟨true, [(['q', 'b', '1', '.', 't', 'x', 't'],
          "5551234----9001\n5555678----9001\n".data.map some)], []⟩
        []).store
        = (parse_and_import_data none 5
        ⟨true, [(['q', 'b', '1', '.', 't', 'x', 't'],
          "5551234----9001\n5555678----9001\n".data.map some)], []⟩
        []).store :=
  batch_threshold_immaterial 2 5 _ [] (by decide) (by decide)

/-- C5.  For every input text, the extractor yields exactly the
non-overlapping matches of one-or-more decimal digits, four hyphens,
one-or-more decimal digits, in left-to-right appearance order, and a text
with zero matches yields the empty sequence: `findAll` satisfies the
declarative `ExtractionSpec` on every input. -/
theorem extractor_meets_declarative_spec (l : Str) :
    ExtractionSpec l (findAll l) :=
  findAll_spec l

/-- C6 counterexample: with files present but none matching `qb*.txt` in
either directory, the run exits `0` with zero imported records and the
schema created, but the final `Total records imported` line is never
printed — the early-return path reports no total, refuting «a reported
total of 0». -/
theorem no_matching_files_total_unreported :
    (parse_and_import_data none 50000
        ⟨true, [(['d', 'a', 't', 'a', '.', 't', 'x', 't'], [])],
          [(['n', 'o', 't', 'e', 's', '.', 't', 'x', 't'], [])]⟩ []).exitCode = 0 ∧
      (parse_and_import_data none 50000
        ⟨true, [(['d', 'a', 't', 'a', '.', 't', 'x', 't'], [])],
          [(['n', 'o', 't', 'e', 's', '.', 't', 'x', 't'], [])]⟩ []).total = 0 ∧
      ¬ (parse_and_import_data none 50000
        ⟨true, [(['d', 'a', 't', 'a', '.', 't', 'x', 't'], [])],
          [(['n', 'o', 't', 'e', 's', '.', 't', 'x', 't'], [])]⟩ []).finalReport
        = some 0 := by
  refine ⟨rfl, rfl, by decide⟩

/-- C6 (amended).  When no file matches the configured glob in the source
directory and the current-working-directory fallback also matches none, the
run terminates successfully (exit status `0`) having imported zero records,
with the schema created and the store untouched; no final-total line is
printed on this early-return path (`finalReport = none`). -/
theorem no_matching_files_noop (fs : FileSys) (s0 : Store)
    (hp : (if fs.dataDirExists then fs.dataDirFiles else []).filter
      (fun f => globMatch f.1) = [])
    (hc : fs.cwdFiles.filter (fun f => globMatch f.1) = []) :
    parse_and_import_data none 50000 fs s0 = ⟨0, s0, 0, none, false, true, true⟩ := by
  have hd : discovered fs = [] := by
    unfold discovered
    rw [hp, hc]
    rfl
  unfold parse_and_import_data
  rw [if_neg (show (none : Option Nat) ≠ some 0 by simp), hd]
  rfl

/-- Witness for the amended C6. -/
theorem no_matching_files_noop_w :
    parse_and_import_data none 50000
        ⟨true, [(['d', 'a', 't', 'a', '.', 'c', 's', 'v'], [])],
          [(['r', 'e', 'a', 'd', 'm', 'e'], [])]⟩ [(['1'], ['2'])]
      = ⟨0, [(['1'], ['2'])], 0, none, false, true, true⟩ :=
  no_matching_files_noop _ [(['1'], ['2'])] (by decide) (by decide)

/-- C7 (code behaviour at the claim's failing input).  When `DATA_DIR` does
not exist and the fallback directory holds no matching file, `glob.glob`
returns `[]` instead of raising `FileNotFoundError`, so the run follows the
ordinary empty-discovery path: it completes with exit status `0`, zero
imported records and no error report — the `except FileNotFoundError`
handler of the source (its intended fatal path) is unreachable from
directory enumeration. -/
theorem missing_dir_still_exits_zero :
    (parse_and_import_data none 50000
        ⟨false, [(['q', 'b', '1', '.', 't', 'x', 't'], "1----2".data.map some)], []⟩
        []).exitCode = 0 ∧
      (parse_and_import_data none 50000
        ⟨false, [(['q', 'b', '1', '.', 't', 'x', 't'], "1----2".data.map some)], []⟩
        []).total = 0 ∧
      (parse_and_import_data none 50000
        ⟨false, [(['q', 'b', '1', '.', 't', 'x', 't'], "1----2".data.map some)], []⟩
        []).errorReported = false :=
  ⟨rfl, rfl, rfl⟩

/-- C8.  On any storage-engine error during a run the current batch and the
whole run abort with no retry (the committed operations are exactly those
numbered below the failing one, `f.ops = k`), the error is reported, the
process exits with a non-zero status, and the connection is released on
every exit path, normal or failing. -/
theorem storage_error_aborts_run (failAt : Option Nat) (bs : Nat)
    (fs : FileSys) (s0 : Store) :
    (parse_and_import_data failAt bs fs s0).closed = true ∧
      (failAt = some 0 →
        parse_and_import_data failAt bs fs s0 = ⟨1, s0, 0, none, true, false, true⟩) ∧
      (∀ k f, failAt = some k → k ≠ 0 →
        (discovered fs).map decodeIgnore ≠ [] →
        bodyE failAt bs ((discovered fs).map decodeIgnore) s0 = Except.error f →
        parse_and_import_data failAt bs fs s0
            = ⟨1, f.store, f.total, none, true, true, true⟩ ∧ f.ops = k) := by
  refine ⟨run_closed failAt bs fs s0, ?_, ?_⟩
  · intro h0
    unfold parse_and_import_data
    rw [if_pos h0]
  · intro k f hk hk0 hc he
    have h0 : failAt ≠ some 0 := by
      rw [hk]
      simpa using hk0
    refine ⟨run_error_result failAt bs fs s0 f h0 hc he, ?_⟩
    have h1 := bodyE_error_ops failAt bs _ s0 f he
    rw [hk] at h1
    exact (Option.some.inj h1).symm

/-- Witness for C8: batch size `1`, failure injected at storage operation
`1` (the first batch write): the run ends with exit code `1`, a reported
error, a released connection, an empty store (the failing batch is not
applied) and exactly the operations before the failure committed. -/
theorem storage_error_aborts_run_w :
    parse_and_import_data (some 1) 1
        ⟨true, [(['q', 'b', '1', '.', 't', 'x', 't'],
          "5551234----9001\n5555678----9001\n".data.map some)], []⟩ []
        = ⟨1, [], 1, none, true, true, true⟩ ∧
      (⟨[], [("9001".data, "5551234".data)], 1, 1⟩ : RunSt).ops = 1 :=
  (storage_error_aborts_run (some 1) 1
      ⟨true, [(['q', 'b', '1', '.', 't', 'x', 't'],
        "5551234----9001\n5555678----9001\n".data.map some)], []⟩ []).2.2
    1 ⟨[], [("9001".data, "5551234".data)], 1, 1⟩ rfl (by decide) (by decide) rfl

theorem run_none_exit (bs : Nat) (fs : FileSys) (s0 : Store) :
    (parse_and_import_data none bs fs s0).exitCode = 0 := by
  unfold parse_and_import_data
  rw [if_neg (show (none : Option Nat) ≠ some 0 by simp)]
  by_cases hc : (discovered fs).map decodeIgnore = []
  · rw [if_pos hc]
  · rw [if_neg hc, bodyE_none]

/-- C9.  An undecodable input file alongside a well-formed file does not
abort the run: its invalid byte sequences are dropped, extraction continues
on the remaining decodable content, the run exits `0`, and every record of
the well-formed (later) file is still imported — its last-written value for
each key is what the final store returns. -/
theorem undecodable_file_does_not_abort (bad : RawFile) (good : Str) (s0 : Store) :
    (parse_and_import_data none 50000
        ⟨true, [(['q', 'b', '1', '.', 't', 'x', 't'], bad),
          (['q', 'b', '2', '.', 't', 'x', 't'], good.map some)], []⟩ s0).exitCode = 0 ∧
      (parse_and_import_data none 50000
        ⟨true, [(['q', 'b', '1', '.', 't', 'x', 't'], bad),
          (['q', 'b', '2', '.', 't', 'x', 't'], good.map some)], []⟩ s0).store
        = upsertBatch (upsertBatch s0 (canonRecs (findAll (decodeIgnore bad))))
            (canonRecs (findAll good)) ∧
      (∀ u v, lastVal (canonRecs (findAll good)) u = some v →
        lookupStore (parse_and_import_data none 50000
          ⟨true, [(['q', 'b', '1', '.', 't', 'x', 't'], bad),
            (['q', 'b', '2', '.', 't', 'x', 't'], good.map some)], []⟩ s0).store u
          = some v) := by
  have h1 : globMatch ['q', 'b', '1', '.', 't', 'x', 't'] = true := by decide
  have h2 : globMatch ['q', 'b', '2', '.', 't', 'x', 't'] = true := by decide
  have hstore : (parse_and_import_data none 50000
      ⟨true, [(['q', 'b', '1', '.', 't', 'x', 't'], bad),
        (['q', 'b', '2', '.', 't', 'x', 't'], good.map some)], []⟩ s0).store
      = upsertBatch (upsertBatch s0 (canonRecs (findAll (decodeIgnore bad))))
          (canonRecs (findAll good)) := by
    rw [run_none_store]
    unfold canonRecords
    have hdisc : discovered
        ⟨true, [(['q', 'b', '1', '.', 't', 'x', 't'], bad),
          (['q', 'b', '2', '.', 't', 'x', 't'], good.map some)], []⟩
        = [bad, good.map some] := by
      unfold discovered
      simp [h1, h2]
    rw [hdisc]
    simp only [List.map_cons, List.map_nil, decodeIgnore_clean]
    unfold canonOf
    simp only [List.map_cons, List.map_nil, List.flatten_cons, List.flatten_nil,
      List.append_nil]
    rw [upsertBatch_append]
  refine ⟨run_none_exit 50000 _ s0, hstore, ?_⟩
  intro u v hlast
  rw [hstore, lookup_upsertBatch, hlast]
  rfl

/-- Witness for C9: a file of two invalid byte chunks around a digit run
beside the well-formed file `77----88`; the run exits 0 and key `88` reads
`77`. -/
theorem undecodable_file_does_not_abort_w :
    lookupStore (parse_and_import_data none 50000
        ⟨true, [(['q', 'b', '1', '.', 't', 'x', 't'],
            [none, some '5', none]),
          (['q', 'b', '2', '.', 't', 'x', 't'], "77----88".data.map some)], []⟩
        []).store "88".data = some "77".data :=
  (undecodable_file_does_not_abort [none, some '5', none] "77----88".data []).2.2
    "88".data "77".data (by decide)

/-- The per-file loop is the fold of the record-level loop body over the
concatenated raw record stream of all files. -/
theorem filesP_eq_foldRecords (bs : Nat) (st : RunSt) (contents : List Str) :
    filesP bs st contents
      = ((contents.map findAll).flatten).foldl (stepP bs) st := by
  induction contents generalizing st with
  | nil => rfl
  | cons c t ih =>
    unfold filesP at ih ⊢
    rw [List.foldl_cons, ih]
    simp only [List.map_cons, List.flatten_cons, List.foldl_append]
    rfl

theorem stepP_batch_bound (bs : Nat) (hbs : 0 < bs) (st : RunSt)
    (r : Str × Str) (h : st.batch.length < bs) :
    (stepP bs st r).batch.length < bs := by
  unfold stepP
  by_cases hl : bs ≤ st.batch.length + 1
  · simp only [List.length_append, List.length_cons, List.length_nil, hl, if_pos]
    simpa using hbs
  · rw [if_neg (by simpa using hl)]
    simp only [List.length_append, List.length_cons, List.length_nil]
    omega

theorem foldl_stepP_batch_bound (bs : Nat) (hbs : 0 < bs)
    (recs : List (Str × Str)) :
    ∀ st : RunSt, st.batch.length < bs →
      ((recs.foldl (stepP bs) st).batch.length < bs) := by
  induction recs with
  | nil => intro st h; exact h
  | cons r t ih =>
    intro st h
    rw [List.foldl_cons]
    exact ih (stepP bs st r) (stepP_batch_bound bs hbs st r h)

/-- C10.  At every point during ingestion — after any prefix of the raw
record stream of the discovered files — the in-memory batch buffer holds at
most `50000` (the configured batch size) records: each step appends one
record and flushes the buffer back to empty as soon as its length reaches
the threshold. -/
theorem batch_buffer_bounded (fs : FileSys) (s0 : Store) (n : Nat) :
    (((((discovered fs).map decodeIgnore).map findAll).flatten.take n).foldl
        (stepP 50000) ⟨s0, [], 0, 1⟩).batch.length ≤ 50000 := by
  have h := foldl_stepP_batch_bound 50000 (by decide)
    (((((discovered fs).map decodeIgnore).map findAll).flatten.take n))
    ⟨s0, [], 0, 1⟩ (by simp)
  omega

end CyberLookup
